import Mathlib

/-!
Verification of the pyMCTS engine (`mcts.py`).

The Python code is shallowly embedded as follows.

* `MCNode` models a `MonteCarloTreeNode` object together with the subtree it
  owns through its `children` list: fields `visit : ℕ`, `score : ℝ`
  (Python floats are modelled as real numbers, `math.log` as `Real.log`),
  `children : List MCNode`, `is_terminal : Bool`, `minmax_search : Bool`.
  The `parent` back-reference is not a field: parent chains are made explicit
  where they matter (`backpropagate` acts on the chain of ancestors, and the
  re-rooting operation `move_to` is modelled on an object-store view).
* `ucb1` returns an `EReal`: the Python value `float('inf')` is `⊤`.
* `select` is embedded by `selectIdx`, which returns the index of the child
  the Python loop returns; object identity in the Python list corresponds to
  the position in the Lean list.
* One selection→expansion→simulation→backpropagation cycle of
  `MonteCarloTree.search` is `searchIterAux` / `searchIter`.  The two
  domain-supplied capabilities are oracles: `exp` is the list of children
  `expand()` would return on this cycle, `sim` the value `simulate()` returns.
* The argument validation of `search`, the best-child computation after the
  budget, and the time-limited loop's guard are embedded separately
  (`validateSearchArgs`, `bestChild`/`searchReturn`, `timeBudgetGuard`).
-/

/-- One Monte-Carlo tree node (`MonteCarloTreeNode`) together with its owned
subtree: visit counter, accumulated score, ordered child list, terminal flag
and the adversarial-propagation flag. -/
inductive MCNode : Type where
  | mk (visit : ℕ) (score : ℝ) (children : List MCNode)
      (is_terminal : Bool) (minmax_search : Bool) : MCNode

/-- Field `self.visit`. -/
def MCNode.visit : MCNode → ℕ
  | .mk v _ _ _ _ => v

/-- Field `self.score`. -/
def MCNode.score : MCNode → ℝ
  | .mk _ s _ _ _ => s

/-- Field `self.children`. -/
def MCNode.children : MCNode → List MCNode
  | .mk _ _ ch _ _ => ch

/-- Field `self.is_terminal`. -/
def MCNode.is_terminal : MCNode → Bool
  | .mk _ _ _ it _ => it

/-- Field `self.minmax_search`. -/
def MCNode.minmax_search : MCNode → Bool
  | .mk _ _ _ _ ms => ms

instance : Inhabited MCNode := ⟨.mk 0 0 [] false true⟩

open scoped Classical

/-- Class attribute `MonteCarloTreeNode.exploration_weight = 1.0`. -/
def exploration_weight : ℝ := 1

/-- Method `ucb1(N)`: `float('inf')` (here `⊤ : EReal`) when `visit == 0`,
otherwise `score / visit + exploration_weight * (log(N) / visit)`. -/
noncomputable def MCNode.ucb1 (n : MCNode) (N : ℕ) : EReal :=
  if n.visit = 0 then ⊤
  else (((n.score / (n.visit : ℝ)
      + exploration_weight * (Real.log N / (n.visit : ℝ))) : ℝ) : EReal)

/-- Loop body of `select`: scan the children left to right carrying the best
index and best ucb1 value so far; return the current index as soon as an
unvisited child is seen, otherwise update the best on a strict improvement
(`ucb1 > best_ucb1`). `i` is the index of the head of `l` in the full list. -/
noncomputable def selectIdxLoop (N : ℕ) : List MCNode → ℕ → ℕ → EReal → ℕ
  | [], _, bi, _ => bi
  | c :: rest, i, bi, bu =>
      if c.visit = 0 then i
      else if bu < c.ucb1 N then selectIdxLoop N rest (i + 1) i (c.ucb1 N)
      else selectIdxLoop N rest (i + 1) bi bu

/-- Method `select(N)` on a node with children `l`, returning the index of the
chosen child: `best_child` starts at `children[0]` with its ucb1 value, then
the loop of `selectIdxLoop` runs over the whole list (as in the source, the
first child is also compared against itself, harmlessly). -/
noncomputable def selectIdx (N : ℕ) (l : List MCNode) : ℕ :=
  match l with
  | [] => 0
  | c :: _ => selectIdxLoop N l 0 0 (c.ucb1 N)

/-- Method `select(N)`: returns the node itself when it has no children,
otherwise the child at the index chosen by the loop. -/
noncomputable def MCNode.select (n : MCNode) (N : ℕ) : MCNode :=
  match n.children with
  | [] => n
  | _ :: _ => n.children.getD (selectIdx N n.children) n

theorem selectIdxLoop_cases (N : ℕ) :
    ∀ (l : List MCNode) (i bi : ℕ) (bu : EReal),
      selectIdxLoop N l i bi bu = bi ∨
        ∃ k, k < l.length ∧ selectIdxLoop N l i bi bu = i + k := by
  intro l
  induction l with
  | nil => intro i bi bu; exact Or.inl rfl
  | cons c rest ih =>
      intro i bi bu
      by_cases h0 : c.visit = 0
      · right; exact ⟨0, by simp, by simp [selectIdxLoop, h0]⟩
      · by_cases hlt : bu < c.ucb1 N
        · rcases ih (i + 1) i (c.ucb1 N) with h | ⟨k, hk, h⟩
          · right
            refine ⟨0, by simp, ?_⟩
            simp [selectIdxLoop, h0, hlt, h]
          · right
            refine ⟨k + 1, by simpa using hk, ?_⟩
            simp only [selectIdxLoop, h0, hlt, if_neg, if_pos, ite_false, ite_true]
            rw [h]; omega
        · rcases ih (i + 1) bi bu with h | ⟨k, hk, h⟩
          · left; simp [selectIdxLoop, h0, hlt, h]
          · right
            refine ⟨k + 1, by simpa using hk, ?_⟩
            simp only [selectIdxLoop, h0, hlt, if_neg, ite_false]
            rw [h]; omega

theorem selectIdx_lt (N : ℕ) (l : List MCNode) (h : l ≠ []) :
    selectIdx N l < l.length := by
  match l with
  | c :: rest =>
      have := selectIdxLoop_cases N (c :: rest) 0 0 (c.ucb1 N)
      rcases this with h0 | ⟨k, hk, heq⟩
      · simp [selectIdx, h0]
      · simp only [selectIdx, heq]
        omega

/-- Method `expand_node()` with `exp` the list the domain capability
`self.expand()` returns: store it as the children; when it is empty, mark the
node terminal. Setting each child's `parent` back-reference is implicit in
the functional tree representation. -/
def expand_node (n : MCNode) (exp : List MCNode) : MCNode :=
  match exp with
  | [] => .mk n.visit n.score [] true n.minmax_search
  | _ :: _ => .mk n.visit n.score exp n.is_terminal n.minmax_search

/-- Local effect of `backpropagate(result)` on one node: `visit += 1`,
`score += result`; children and flags untouched. -/
def addResult (n : MCNode) (r : ℝ) : MCNode :=
  .mk (n.visit + 1) (n.score + r) n.children n.is_terminal n.minmax_search

/-- Value `backpropagate` hands to the parent: `-result` when the propagating
node's `minmax_search` flag is set, else `result` unchanged. -/
def flipBy (n : MCNode) (r : ℝ) : ℝ :=
  if n.minmax_search then -r else r

/-- Body of `search_iter` after the descent loop, at a node `t` with no
children: expansion is attempted only when `not curr.is_terminal and
curr.visit != 0`; after expansion, when the node is still not terminal
(equivalently, in that branch, when `exp` is nonempty, since the node was not
terminal before and `expand_node` makes it terminal exactly when `exp` is
empty) the walk moves to the first child `curr.children[0]`.  Finally
`curr.simulate()` (the oracle value `sim`) is taken at whatever node the walk
ends on, and backpropagated.  The result is the updated subtree rooted at `t`
together with the value `backpropagate` passes to `t`'s parent. -/
def leafStep (exp : List MCNode) (sim : ℝ) (t : MCNode) : MCNode × ℝ :=
  if t.is_terminal = false ∧ t.visit ≠ 0 then
    match (expand_node t exp).children with
    | [] =>
        (addResult (expand_node t exp) sim, flipBy (expand_node t exp) sim)
    | c :: cs =>
        (.mk ((expand_node t exp).visit + 1)
          ((expand_node t exp).score + flipBy c sim)
          (addResult c sim :: cs)
          (expand_node t exp).is_terminal (expand_node t exp).minmax_search,
         flipBy (expand_node t exp) (flipBy c sim))
  else (addResult t sim, flipBy t sim)

theorem sizeOf_get_children (t : MCNode) (i : ℕ) (hi : i < t.children.length) :
    sizeOf (t.children.get ⟨i, hi⟩) < sizeOf t := by
  match t with
  | .mk v s ch it ms =>
      have hmem : ch.get ⟨i, hi⟩ ∈ ch := List.get_mem ch i hi
      have := List.sizeOf_lt_of_mem hmem
      simp only [MCNode.children] at *
      simp only [MCNode.mk.sizeOf_spec]
      omega

/-- One full cycle of `search_iter(curr)` started at node `t`: while the
current node has children, descend into the child chosen by
`select(self.root.visit)` (`N` is the root's visit count at cycle start);
at the reached leaf run `leafStep`.  Returns the updated subtree rooted at
`t` and the value backpropagation passes to `t`'s parent; the updates of all
ancestors on the descent path are exactly the effect of
`curr.backpropagate(score)` reaching them. -/
noncomputable def searchIterAux (N : ℕ) (exp : List MCNode) (sim : ℝ)
    (t : MCNode) : MCNode × ℝ :=
  if h : t.children = [] then leafStep exp sim t
  else
    let i := selectIdx N t.children
    let res := searchIterAux N exp sim
      (t.children.get ⟨i, selectIdx_lt N t.children h⟩)
    (.mk (t.visit + 1) (t.score + res.2) (t.children.set i res.1)
      t.is_terminal t.minmax_search,
     flipBy t res.2)
termination_by sizeOf t
decreasing_by exact sizeOf_get_children t _ _

/-- One cycle of `MonteCarloTree.search` on the tree rooted at `t`: the `N`
passed to every `select` call of the descent is `self.root.visit` at the
start of the cycle. -/
noncomputable def searchIter (exp : List MCNode) (sim : ℝ) (t : MCNode) :
    MCNode :=
  (searchIterAux t.visit exp sim t).1

/-- Several search cycles in sequence; each list entry supplies the expansion
and simulation oracle values of one cycle. -/
noncomputable def runCycles : List (List MCNode × ℝ) → MCNode → MCNode
  | [], t => t
  | (e, s) :: rest, t => runCycles rest (searchIter e s t)

/-- Best-child computation at the end of `search`: start from `children[0]`
and replace the best on a strictly greater visit count (`child.visit >
best_child.visit`), scanning `children[1:]` in order. -/
def bestChild : List MCNode → Option MCNode
  | [] => none
  | c :: rest => some (rest.foldl (fun b x => if b.visit < x.visit then x else b) c)

/-- Return phase of `search` once the budget is exhausted: raise
`ValueError` (modelled as `Except.error`) when the root has no children,
otherwise return the visit-count best child. -/
def searchReturn (root : MCNode) : Except String MCNode :=
  match bestChild root.children with
  | none => .error "No children found in the root node. Ensure the root could be expanded."
  | some c => .ok c

/-- Python truthiness of an optional `int` argument: `None` and `0` are
falsy. -/
def truthyInt : Option ℤ → Bool
  | none => false
  | some x => x ≠ 0

/-- Python truthiness of an optional `float` argument: `None` and `0.0` are
falsy (floats are modelled as rationals here; only order and zero-tests
matter). -/
def truthyFloat : Option ℚ → Bool
  | none => false
  | some x => x ≠ 0

/-- Argument validation prologue of `search(iterations, time_limit)`, in
source order: both absent, both present, `time_limit and time_limit <= 0`,
`iterations and iterations <= 0`.  Returns the `ValueError` message raised,
or `none` when no argument error is raised. -/
def validateSearchArgs (iterations : Option ℤ) (time_limit : Option ℚ) :
    Option String :=
  if iterations = none ∧ time_limit = none then
    some "Either iterations or time_limit must be specified."
  else if iterations ≠ none ∧ time_limit ≠ none then
    some "Only one of iterations or time_limit can be specified."
  else if truthyFloat time_limit ∧ time_limit.getD 0 ≤ 0 then
    some "Time limit must be greater than zero."
  else if truthyInt iterations ∧ iterations.getD 0 ≤ 0 then
    some "Number of iterations must be greater than zero."
  else none

/-- Constant `CHECK_ITERATIONS = 100` of the time-limited branch. -/
def CHECK_ITERATIONS : ℕ := 100

/-- Guard of the time-limited loop, evaluated with the current value of
`iters` and the current truth value of `time() - start_time < time_limit`:
`while iters % CHECK_ITERATIONS != 0 and time() - start_time < time_limit`. -/
def timeBudgetGuard (iters : ℕ) (withinBudget : Bool) : Bool :=
  (decide (iters % CHECK_ITERATIONS ≠ 0)) && withinBudget

/-- Number of `search_iter` cycles the time-limited loop executes, for an
arbitrary behaviour of the wall clock: `clock i` is the truth value of
`time() - start_time < time_limit` when the guard is evaluated with
`iters = i`.  `fuel` bounds the unrolling; the count never depends on it
beyond being an upper bound. -/
def timeLoopCount (clock : ℕ → Bool) : ℕ → ℕ → ℕ
  | 0, _ => 0
  | fuel + 1, iters =>
      if timeBudgetGuard iters (clock iters) then
        timeLoopCount clock fuel (iters + 1) + 1
      else 0

/-- View of one node as seen by `backpropagate`: its counter, accumulator and
propagation flag.  A node together with its chain of ancestors (the `parent`
back-references up to the root) is a `List BPNode`, head first. -/
structure BPNode where
  visit : ℕ
  score : ℝ
  minmax_search : Bool

/-- Method `backpropagate(result)` acting on a node and its ancestor chain
(head = the node itself, last = the parentless root): `visit += 1`,
`score += result`, then recurse into the parent with `-result` when this
node's `minmax_search` flag is set, else with `result`; the recursion stops
when there is no parent (empty tail). -/
def backpropagate (r : ℝ) : List BPNode → List BPNode
  | [] => []
  | n :: ancestors =>
      ⟨n.visit + 1, n.score + r, n.minmax_search⟩ ::
        backpropagate (if n.minmax_search then -r else r) ancestors

/-- Signed reward that `backpropagate(r)` started below has accumulated after
passing the nodes of `pre`: each passed node flips the sign exactly when its
own `minmax_search` flag is set. -/
def rewardAfter (r : ℝ) (pre : List BPNode) : ℝ :=
  pre.foldl (fun acc n => if n.minmax_search then -acc else acc) r

/-- Object-store view of one `MonteCarloTreeNode`: the same fields plus the
`parent` back-reference as an optional node id.  Children are node ids here,
so the subtree below a node is given by the store. -/
structure RefNode where
  visit : ℕ
  score : ℝ
  children : List ℕ
  is_terminal : Bool
  minmax_search : Bool
  parent : Option ℕ

/-- Object-store view of a `MonteCarloTree`: the heap of node objects and the
id of the current root. -/
structure RefTree where
  nodes : ℕ → RefNode
  root : ℕ

/-- Setter for the `parent` field of a `RefNode`. -/
def RefNode.setParent (n : RefNode) (p : Option ℕ) : RefNode :=
  { n with parent := p }

/-- Method `MonteCarloTree.move_to(node)` for a valid node reference `n`:
`self.root = node; self.root.parent = None`.  Only the root id and the new
root's `parent` field change; every other object of the store is untouched. -/
def move_to (t : RefTree) (n : ℕ) : RefTree :=
  { nodes := fun m => if m = n then (t.nodes n).setParent none else t.nodes m,
    root := n }

theorem sizeOf_lt_of_mem_children {c t : MCNode} (h : c ∈ t.children) :
    sizeOf c < sizeOf t := by
  cases t with
  | mk v s ch it ms =>
      have hs := List.sizeOf_lt_of_mem (show c ∈ ch from h)
      simp only [MCNode.mk.sizeOf_spec]
      omega

/-- Predicate holding at every node of the subtree rooted at `t`. -/
def AllNodes (P : MCNode → Prop) (t : MCNode) : Prop :=
  P t ∧ ∀ c ∈ t.children, AllNodes P c
termination_by sizeOf t
decreasing_by exact sizeOf_lt_of_mem_children (by assumption)

/-- A node as the domain capability `expand()` must deliver it: fresh
(`visit == 0`, `score == 0`) and not yet expanded (no children). -/
def FreshNode (n : MCNode) : Prop :=
  n.visit = 0 ∧ n.score = 0 ∧ n.children = []

theorem leafStep_no_expand (exp : List MCNode) (sim : ℝ) (t : MCNode)
    (h : t.is_terminal = true ∨ t.visit = 0) :
    leafStep exp sim t = (addResult t sim, flipBy t sim) := by
  have : ¬(t.is_terminal = false ∧ t.visit ≠ 0) := by
    rcases h with h | h <;> simp [h]
  simp [leafStep, this]

theorem leafStep_expand_nil (sim : ℝ) (t : MCNode)
    (h1 : t.is_terminal = false) (h2 : t.visit ≠ 0) :
    leafStep [] sim t =
      (.mk (t.visit + 1) (t.score + sim) [] true t.minmax_search,
       flipBy t sim) := by
  cases t with
  | mk v s ch it ms =>
      simp only [MCNode.is_terminal] at h1
      simp only [MCNode.visit] at h2
      subst h1
      simp [leafStep, h2, expand_node, addResult, flipBy,
        MCNode.visit, MCNode.score, MCNode.children, MCNode.is_terminal,
        MCNode.minmax_search]

theorem leafStep_expand_cons (c : MCNode) (cs : List MCNode) (sim : ℝ)
    (t : MCNode) (h1 : t.is_terminal = false) (h2 : t.visit ≠ 0) :
    leafStep (c :: cs) sim t =
      (.mk (t.visit + 1) (t.score + flipBy c sim) (addResult c sim :: cs)
        false t.minmax_search,
       flipBy t (flipBy c sim)) := by
  cases t with
  | mk v s ch it ms =>
      simp only [MCNode.is_terminal] at h1
      simp only [MCNode.visit] at h2
      subst h1
      simp [leafStep, h2, expand_node, flipBy,
        MCNode.visit, MCNode.score, MCNode.children, MCNode.is_terminal,
        MCNode.minmax_search]

theorem searchIterAux_leaf (N : ℕ) (exp : List MCNode) (sim : ℝ) (t : MCNode)
    (h : t.children = []) :
    searchIterAux N exp sim t = leafStep exp sim t := by
  rw [searchIterAux]
  simp [h]

theorem searchIterAux_descend (N : ℕ) (exp : List MCNode) (sim : ℝ)
    (t : MCNode) (h : t.children ≠ []) :
    searchIterAux N exp sim t =
      (.mk (t.visit + 1)
        (t.score + (searchIterAux N exp sim
          (t.children.get ⟨selectIdx N t.children, selectIdx_lt N t.children h⟩)).2)
        (t.children.set (selectIdx N t.children)
          (searchIterAux N exp sim
            (t.children.get ⟨selectIdx N t.children, selectIdx_lt N t.children h⟩)).1)
        t.is_terminal t.minmax_search,
       flipBy t (searchIterAux N exp sim
         (t.children.get ⟨selectIdx N t.children, selectIdx_lt N t.children h⟩)).2) := by
  rw [searchIterAux]
  simp [h]

/-- C1: the claim says the time-limited branch of `search` runs at least one
selection→expansion→simulation→backpropagation cycle and keeps cycling until
the wall-clock budget is exceeded.  The code disagrees: the loop guard
`iters % CHECK_ITERATIONS != 0 and time() - start_time < time_limit` is
already false when `iters == 0`, so for every behaviour of the wall clock and
every unrolling bound the loop body runs zero times. -/
theorem C1_time_limit_loop_runs_no_cycle (clock : ℕ → Bool) (fuel : ℕ) :
    timeLoopCount clock fuel 0 = 0 := by
  cases fuel with
  | zero => rfl
  | succ n =>
      simp [timeLoopCount, timeBudgetGuard, CHECK_ITERATIONS]

/-- C2: the claim says a bound of exactly 0 raises an argument error.  In the
code the checks are guarded by Python truthiness (`if time_limit and ...`,
`if iterations and ...`) and `0` is falsy, so `search(iterations=0)` and
`search(time_limit=0)` pass argument validation without any error, while the
both/neither/negative cases do raise exactly as claimed. -/
theorem C2_zero_bound_not_rejected :
    validateSearchArgs (some 0) none = none ∧
    validateSearchArgs none (some 0) = none ∧
    validateSearchArgs none none =
      some "Either iterations or time_limit must be specified." ∧
    validateSearchArgs (some 5) (some 1) =
      some "Only one of iterations or time_limit can be specified." ∧
    validateSearchArgs none (some (-1)) =
      some "Time limit must be greater than zero." ∧
    validateSearchArgs (some (-3)) none =
      some "Number of iterations must be greater than zero." := by
  refine ⟨?_, ?_, ?_, ?_, ?_, ?_⟩ <;>
    simp [validateSearchArgs, truthyInt, truthyFloat]

/-- C6: `ucb1(N)` is positive infinity exactly when the node is unvisited,
and otherwise equals `score / visit + log(N) / visit` — the exploration
weight is its default `1.0`, the exploration term has no square root, and
`N` is whatever visit count the caller supplies. -/
theorem C6_ucb1_formula (n : MCNode) (N : ℕ) (_hN : 1 ≤ N) :
    (n.ucb1 N = ⊤ ↔ n.visit = 0) ∧
    (n.visit ≠ 0 →
      n.ucb1 N =
        (((n.score / (n.visit : ℝ) + Real.log N / (n.visit : ℝ)) : ℝ) : EReal)) := by
  constructor
  · constructor
    · intro h
      by_contra h0
      rw [MCNode.ucb1, if_neg h0] at h
      exact (EReal.coe_ne_top _) h
    · intro h0
      rw [MCNode.ucb1, if_pos h0]
  · intro h0
    rw [MCNode.ucb1, if_neg h0, exploration_weight]
    norm_num

/-- Witness for C6 at a visited and at an unvisited node with `N = 1`. -/
theorem C6_ucb1_formula_witness :
    (1 ≤ 1 ∧
      ((MCNode.mk 2 1 [] false true).ucb1 1 = ⊤ ↔
          (MCNode.mk 2 1 [] false true).visit = 0) ∧
      ((MCNode.mk 2 1 [] false true).visit ≠ 0 →
        (MCNode.mk 2 1 [] false true).ucb1 1 =
          ((((MCNode.mk 2 1 [] false true).score /
                ((MCNode.mk 2 1 [] false true).visit : ℝ) +
              Real.log ((1 : ℕ) : ℝ) /
                ((MCNode.mk 2 1 [] false true).visit : ℝ)) : ℝ) : EReal))) :=
  ⟨le_refl 1, C6_ucb1_formula (.mk 2 1 [] false true) 1 (le_refl 1)⟩

/-- C4: `backpropagate(result)` called on a node with ancestor chain `chain`
(head = the node, last = the root) updates every node of the chain exactly
once: `visit` goes up by one, `score` receives the signed reward, the sign
having been flipped once for every strictly earlier node of the chain whose
own `minmax_search` flag is set (the propagating node's flag, not the
child's), and the recursion ends at the parentless root (the chain's end). -/
theorem C4_backpropagate_chain (r : ℝ) (chain : List BPNode) :
    (backpropagate r chain).length = chain.length ∧
    ∀ (i : ℕ) (n : BPNode), chain.get? i = some n →
      (backpropagate r chain).get? i =
        some ⟨n.visit + 1, n.score + rewardAfter r (chain.take i),
          n.minmax_search⟩ := by
  induction chain generalizing r with
  | nil =>
      refine ⟨rfl, ?_⟩
      intro i n h
      simp [List.get?] at h
  | cons m rest ih =>
      refine ⟨?_, ?_⟩
      · simp [backpropagate, (ih (if m.minmax_search then -r else r)).1]
      · intro i n h
        cases i with
        | zero =>
            simp only [List.get?] at h
            cases h
            simp [backpropagate, rewardAfter]
        | succ i =>
            simp only [List.get?] at h
            have := (ih (if m.minmax_search then -r else r)).2 i n h
            simp only [backpropagate, List.get?, List.take, rewardAfter,
              List.foldl] at this ⊢
            exact this

/-- Witness for C4 on a two-node chain with an adversarial head: the parent
receives the sign-flipped reward. -/
theorem C4_backpropagate_chain_witness :
    (([(⟨0, 0, true⟩ : BPNode), ⟨1, 2, false⟩] : List BPNode).get? 1 =
        some ⟨1, 2, false⟩) ∧
    (backpropagate 1 [(⟨0, 0, true⟩ : BPNode), ⟨1, 2, false⟩]).get? 1 =
      some ⟨(1 : ℕ) + 1,
        (2 : ℝ) + rewardAfter 1
          (([(⟨0, 0, true⟩ : BPNode), ⟨1, 2, false⟩] : List BPNode).take 1),
        false⟩ :=
  ⟨rfl, (C4_backpropagate_chain 1 [⟨0, 0, true⟩, ⟨1, 2, false⟩]).2 1
    ⟨1, 2, false⟩ rfl⟩

/-- C7: in a search cycle, once the descent has reached a childless node
`t`: when `t` is not terminal and already visited, `expand_node` runs with
the domain's children `exp`, and when the node is (still) not terminal the
walk moves to the first child `exp = c :: cs` and simulates that child — the
result tree shows `c` (index 0), not a `select`-chosen sibling, carrying the
simulation update, with the siblings `cs` untouched; when instead `t` is
terminal or unvisited, `t` itself is simulated and no expansion happens. -/
theorem C7_expand_then_first_child (N : ℕ) (exp : List MCNode) (sim : ℝ)
    (t : MCNode) (hleaf : t.children = []) :
    (t.is_terminal = false → t.visit ≠ 0 → ∀ c cs, exp = c :: cs →
      searchIterAux N exp sim t =
        (.mk (t.visit + 1) (t.score + flipBy c sim) (addResult c sim :: cs)
          false t.minmax_search,
         flipBy t (flipBy c sim))) ∧
    ((t.is_terminal = true ∨ t.visit = 0) →
      searchIterAux N exp sim t = (addResult t sim, flipBy t sim)) := by
  rw [searchIterAux_leaf N exp sim t hleaf]
  constructor
  · intro h1 h2 c cs hexp
    subst hexp
    exact leafStep_expand_cons c cs sim t h1 h2
  · intro h
    exact leafStep_no_expand exp sim t h

/-- Witness for C7: a visited, childless, non-terminal node is expanded with
two fresh children and the first of them receives the simulation update. -/
theorem C7_expand_then_first_child_witness :
    ((MCNode.mk 1 0 [] false true).children = []) ∧
    searchIterAux 1 [MCNode.mk 0 0 [] false true, MCNode.mk 0 0 [] false false]
        1 (MCNode.mk 1 0 [] false true) =
      (.mk ((MCNode.mk 1 0 [] false true).visit + 1)
        ((MCNode.mk 1 0 [] false true).score +
          flipBy (MCNode.mk 0 0 [] false true) 1)
        (addResult (MCNode.mk 0 0 [] false true) 1 ::
          [MCNode.mk 0 0 [] false false])
        false (MCNode.mk 1 0 [] false true).minmax_search,
       flipBy (MCNode.mk 1 0 [] false true)
         (flipBy (MCNode.mk 0 0 [] false true) 1)) :=
  ⟨rfl,
    (C7_expand_then_first_child 1
      [MCNode.mk 0 0 [] false true, MCNode.mk 0 0 [] false false] 1
      (MCNode.mk 1 0 [] false true) rfl).1 rfl (by decide)
      (MCNode.mk 0 0 [] false true) [MCNode.mk 0 0 [] false false] rfl⟩

/-- C8: `move_to(node)` on a valid node reference makes that node the root
and clears its parent back-reference, leaving its visit count, score,
children list and terminal flag — and every other object of the store, hence
the entire subtree below it — exactly as before the call. -/
theorem C8_move_to_frame (t : RefTree) (n : ℕ) :
    (move_to t n).root = n ∧
    ((move_to t n).nodes n).parent = none ∧
    ((move_to t n).nodes n).visit = (t.nodes n).visit ∧
    ((move_to t n).nodes n).score = (t.nodes n).score ∧
    ((move_to t n).nodes n).children = (t.nodes n).children ∧
    ((move_to t n).nodes n).is_terminal = (t.nodes n).is_terminal ∧
    ∀ m, m ≠ n → (move_to t n).nodes m = t.nodes m := by
  refine ⟨rfl, ?_, ?_, ?_, ?_, ?_, ?_⟩
  · simp [move_to, RefNode.setParent]
  · simp [move_to, RefNode.setParent]
  · simp [move_to, RefNode.setParent]
  · simp [move_to, RefNode.setParent]
  · simp [move_to, RefNode.setParent]
  · intro m hm
    simp [move_to, hm]

/-- Witness for C8 on a two-object store: re-rooting at object 1 leaves
object 0 untouched. -/
theorem C8_move_to_frame_witness :
    ((0 : ℕ) ≠ 1) ∧
    (move_to
        ⟨fun m => if m = 1 then ⟨3, 2, [2], false, true, some 0⟩
          else ⟨5, 1, [1], false, true, none⟩, 0⟩ 1).nodes 0 =
      (⟨fun m => if m = 1 then ⟨3, 2, [2], false, true, some 0⟩
          else ⟨5, 1, [1], false, true, none⟩, 0⟩ : RefTree).nodes 0 :=
  ⟨by decide,
    (C8_move_to_frame
      ⟨fun m => if m = 1 then ⟨3, 2, [2], false, true, some 0⟩
        else ⟨5, 1, [1], false, true, none⟩, 0⟩ 1).2.2.2.2.2.2 0 (by decide)⟩

theorem bestChildFold_spec :
    ∀ (rest : List MCNode) (b : MCNode),
      (rest.foldl (fun b x => if b.visit < x.visit then x else b) b = b ∧
        ∀ (j : ℕ) (hj : j < rest.length), (rest.get ⟨j, hj⟩).visit ≤ b.visit) ∨
      (∃ (k : ℕ) (hk : k < rest.length),
        rest.foldl (fun b x => if b.visit < x.visit then x else b) b =
          rest.get ⟨k, hk⟩ ∧
        b.visit < (rest.get ⟨k, hk⟩).visit ∧
        (∀ (j : ℕ) (hj : j < rest.length),
          (rest.get ⟨j, hj⟩).visit ≤ (rest.get ⟨k, hk⟩).visit) ∧
        (∀ (j : ℕ) (hj : j < rest.length), j < k →
          (rest.get ⟨j, hj⟩).visit < (rest.get ⟨k, hk⟩).visit)) := by
  intro rest
  induction rest with
  | nil =>
      intro b
      left
      exact ⟨rfl, fun j hj => absurd hj (by simp)⟩
  | cons x rest ih =>
      intro b
      by_cases hbx : b.visit < x.visit
      · rcases ih x with ⟨heq, hle⟩ | ⟨k, hk, heq, hgt, hle, hfirst⟩
        · right
          refine ⟨0, by simp, ?_, ?_, ?_, ?_⟩
          · simp only [List.foldl, if_pos hbx, List.get]
            exact heq
          · simpa [List.get] using hbx
          · intro j hj
            cases j with
            | zero => simp [List.get]
            | succ j => simpa [List.get] using hle j (by simpa using hj)
          · intro j hj hj0
            omega
        · right
          refine ⟨k + 1, by simpa using hk, ?_, ?_, ?_, ?_⟩
          · simp only [List.foldl, if_pos hbx, List.get]
            exact heq
          · simp only [List.get]
            exact lt_trans hbx hgt
          · intro j hj
            cases j with
            | zero =>
                simp only [List.get]
                exact le_of_lt hgt
            | succ j => simpa [List.get] using hle j (by simpa using hj)
          · intro j hj hjk
            cases j with
            | zero =>
                simp only [List.get]
                exact hgt
            | succ j =>
                simp only [List.get]
                exact hfirst j (by simpa using hj) (by omega)
      · rcases ih b with ⟨heq, hle⟩ | ⟨k, hk, heq, hgt, hle, hfirst⟩
        · left
          refine ⟨?_, ?_⟩
          · simp only [List.foldl, if_neg hbx]
            exact heq
          · intro j hj
            cases j with
            | zero => simpa [List.get] using le_of_not_lt hbx
            | succ j => simpa [List.get] using hle j (by simpa using hj)
        · right
          refine ⟨k + 1, by simpa using hk, ?_, ?_, ?_, ?_⟩
          · simp only [List.foldl, if_neg hbx]
            exact heq
          · simp only [List.get]
            exact hgt
          · intro j hj
            cases j with
            | zero =>
                simp only [List.get]
                exact le_trans (le_of_not_lt hbx) (le_of_lt hgt)
            | succ j => simpa [List.get] using hle j (by simpa using hj)
          · intro j hj hjk
            cases j with
            | zero =>
                simp only [List.get]
                exact lt_of_le_of_lt (le_of_not_lt hbx) hgt
            | succ j =>
                simp only [List.get]
                exact hfirst j (by simpa using hj) (by omega)

/-- C3: once the budget is done, `search` raises the no-children
`ValueError` when the root is childless, and otherwise returns the immediate
child of the root with the greatest `visit` count, an earlier child winning
every exact tie (the scan starts at `children[0]` and replaces the best only
on a strictly greater count). -/
theorem C3_return_best_visited_child (root : MCNode) :
    (root.children = [] →
      searchReturn root =
        .error "No children found in the root node. Ensure the root could be expanded.") ∧
    (root.children ≠ [] →
      ∃ (i : ℕ) (hi : i < root.children.length),
        searchReturn root = .ok (root.children.get ⟨i, hi⟩) ∧
        (∀ (j : ℕ) (hj : j < root.children.length),
          (root.children.get ⟨j, hj⟩).visit ≤ (root.children.get ⟨i, hi⟩).visit) ∧
        (∀ (j : ℕ) (hj : j < root.children.length), j < i →
          (root.children.get ⟨j, hj⟩).visit <
            (root.children.get ⟨i, hi⟩).visit)) := by
  constructor
  · intro h
    simp [searchReturn, bestChild, h]
  · intro h
    match hch : root.children with
    | [] => exact absurd hch h
    | c :: rest =>
        have hret : searchReturn root =
            .ok (rest.foldl (fun b x => if b.visit < x.visit then x else b) c) := by
          simp [searchReturn, bestChild, hch]
        rcases bestChildFold_spec rest c with ⟨heq, hle⟩ | ⟨k, hk, heq, hgt, hle, hfirst⟩
        · refine ⟨0, by simp, ?_, ?_, ?_⟩
          · rw [hret, heq]
            simp [List.get]
          · intro j hj
            cases j with
            | zero => simp [List.get]
            | succ j => simpa [List.get] using hle j (by simpa using hj)
          · intro j hj hj0
            omega
        · refine ⟨k + 1, by simpa using hk, ?_, ?_, ?_⟩
          · rw [hret, heq]
            simp [List.get]
          · intro j hj
            cases j with
            | zero =>
                simp only [List.get]
                exact le_of_lt hgt
            | succ j => simpa [List.get] using hle j (by simpa using hj)
          · intro j hj hjk
            cases j with
            | zero =>
                simp only [List.get]
                exact hgt
            | succ j =>
                simp only [List.get]
                exact hfirst j (by simpa using hj) (by omega)

/-- Witness for C3: a root with three children of visit counts 1, 3, 3. -/
theorem C3_return_best_visited_child_witness :
    ((MCNode.mk 7 0 [MCNode.mk 1 0 [] false true, MCNode.mk 3 0 [] false true,
        MCNode.mk 3 1 [] false true] false true).children ≠ []) ∧
    (∃ (i : ℕ)
      (hi : i < (MCNode.mk 7 0 [MCNode.mk 1 0 [] false true,
        MCNode.mk 3 0 [] false true,
        MCNode.mk 3 1 [] false true] false true).children.length),
      searchReturn (MCNode.mk 7 0 [MCNode.mk 1 0 [] false true,
          MCNode.mk 3 0 [] false true, MCNode.mk 3 1 [] false true] false true) =
        .ok ((MCNode.mk 7 0 [MCNode.mk 1 0 [] false true,
          MCNode.mk 3 0 [] false true,
          MCNode.mk 3 1 [] false true] false true).children.get ⟨i, hi⟩) ∧
      (∀ (j : ℕ)
        (hj : j < (MCNode.mk 7 0 [MCNode.mk 1 0 [] false true,
          MCNode.mk 3 0 [] false true,
          MCNode.mk 3 1 [] false true] false true).children.length),
        ((MCNode.mk 7 0 [MCNode.mk 1 0 [] false true,
          MCNode.mk 3 0 [] false true,
          MCNode.mk 3 1 [] false true] false true).children.get ⟨j, hj⟩).visit ≤
          ((MCNode.mk 7 0 [MCNode.mk 1 0 [] false true,
            MCNode.mk 3 0 [] false true,
            MCNode.mk 3 1 [] false true] false true).children.get ⟨i, hi⟩).visit) ∧
      (∀ (j : ℕ)
        (hj : j < (MCNode.mk 7 0 [MCNode.mk 1 0 [] false true,
          MCNode.mk 3 0 [] false true,
          MCNode.mk 3 1 [] false true] false true).children.length), j < i →
        ((MCNode.mk 7 0 [MCNode.mk 1 0 [] false true,
          MCNode.mk 3 0 [] false true,
          MCNode.mk 3 1 [] false true] false true).children.get ⟨j, hj⟩).visit <
          ((MCNode.mk 7 0 [MCNode.mk 1 0 [] false true,
            MCNode.mk 3 0 [] false true,
            MCNode.mk 3 1 [] false true] false true).children.get ⟨i, hi⟩).visit)) :=
  ⟨by simp [MCNode.children],
    (C3_return_best_visited_child
      (MCNode.mk 7 0 [MCNode.mk 1 0 [] false true, MCNode.mk 3 0 [] false true,
        MCNode.mk 3 1 [] false true] false true)).2 (by simp [MCNode.children])⟩

theorem getD_eq_get_of_lt (l : List MCNode) (k : ℕ) (d : MCNode)
    (h : k < l.length) : l.getD k d = l.get ⟨k, h⟩ := by
  simp [List.getD_eq_getElem?_getD, List.getElem?_eq_getElem h,
    List.get_eq_getElem]

theorem selectIdxLoop_spec (N : ℕ) :
    ∀ (l : List MCNode) (i bi : ℕ) (bu : EReal),
      (∃ (k : ℕ) (hk : k < l.length),
        selectIdxLoop N l i bi bu = i + k ∧
        (l.get ⟨k, hk⟩).visit = 0 ∧
        ∀ (j : ℕ) (hj : j < l.length), j < k → (l.get ⟨j, hj⟩).visit ≠ 0) ∨
      ((∀ (j : ℕ) (hj : j < l.length), (l.get ⟨j, hj⟩).visit ≠ 0) ∧
        ((selectIdxLoop N l i bi bu = bi ∧
          ∀ (j : ℕ) (hj : j < l.length), (l.get ⟨j, hj⟩).ucb1 N ≤ bu) ∨
        (∃ (k : ℕ) (hk : k < l.length),
          selectIdxLoop N l i bi bu = i + k ∧
          bu < (l.get ⟨k, hk⟩).ucb1 N ∧
          (∀ (j : ℕ) (hj : j < l.length),
            (l.get ⟨j, hj⟩).ucb1 N ≤ (l.get ⟨k, hk⟩).ucb1 N) ∧
          (∀ (j : ℕ) (hj : j < l.length), j < k →
            (l.get ⟨j, hj⟩).ucb1 N < (l.get ⟨k, hk⟩).ucb1 N)))) := by
  intro l
  induction l with
  | nil =>
      intro i bi bu
      right
      refine ⟨fun j hj => absurd hj (by simp), Or.inl ⟨rfl, ?_⟩⟩
      intro j hj
      exact absurd hj (by simp)
  | cons c rest ih =>
      intro i bi bu
      by_cases h0 : c.visit = 0
      · left
        refine ⟨0, by simp, ?_, ?_, ?_⟩
        · simp [selectIdxLoop, h0]
        · simpa [List.get] using h0
        · intro j hj hj0
          omega
      · by_cases hlt : bu < c.ucb1 N
        · have hloop : selectIdxLoop N (c :: rest) i bi bu =
              selectIdxLoop N rest (i + 1) i (c.ucb1 N) := by
            simp [selectIdxLoop, h0, hlt]
          rcases ih (i + 1) i (c.ucb1 N) with
            ⟨k, hk, heq, hv0, hfirst⟩ | ⟨hall, hsub⟩
          · left
            refine ⟨k + 1, by simpa using hk, ?_, ?_, ?_⟩
            · rw [hloop, heq]; omega
            · simpa [List.get] using hv0
            · intro j hj hjk
              cases j with
              | zero => simpa [List.get] using h0
              | succ j =>
                  simp only [List.get]
                  exact hfirst j (by simpa using hj) (by omega)
          · right
            have hall' : ∀ (j : ℕ) (hj : j < (c :: rest).length),
                ((c :: rest).get ⟨j, hj⟩).visit ≠ 0 := by
              intro j hj
              cases j with
              | zero => simpa [List.get] using h0
              | succ j => simpa [List.get] using hall j (by simpa using hj)
            refine ⟨hall', ?_⟩
            rcases hsub with ⟨heq, hle⟩ | ⟨k, hk, heq, hgt, hle, hstrict⟩
            · right
              refine ⟨0, by simp, ?_, ?_, ?_, ?_⟩
              · rw [hloop, heq]; omega
              · simpa [List.get] using hlt
              · intro j hj
                cases j with
                | zero => simp [List.get]
                | succ j => simpa [List.get] using hle j (by simpa using hj)
              · intro j hj hj0
                omega
            · right
              refine ⟨k + 1, by simpa using hk, ?_, ?_, ?_, ?_⟩
              · rw [hloop, heq]; omega
              · simp only [List.get]
                exact lt_trans hlt hgt
              · intro j hj
                cases j with
                | zero =>
                    simp only [List.get]
                    exact le_of_lt hgt
                | succ j => simpa [List.get] using hle j (by simpa using hj)
              · intro j hj hjk
                cases j with
                | zero =>
                    simp only [List.get]
                    exact hgt
                | succ j =>
                    simp only [List.get]
                    exact hstrict j (by simpa using hj) (by omega)
        · have hloop : selectIdxLoop N (c :: rest) i bi bu =
              selectIdxLoop N rest (i + 1) bi bu := by
            simp [selectIdxLoop, h0, hlt]
          rcases ih (i + 1) bi bu with
            ⟨k, hk, heq, hv0, hfirst⟩ | ⟨hall, hsub⟩
          · left
            refine ⟨k + 1, by simpa using hk, ?_, ?_, ?_⟩
            · rw [hloop, heq]; omega
            · simpa [List.get] using hv0
            · intro j hj hjk
              cases j with
              | zero => simpa [List.get] using h0
              | succ j =>
                  simp only [List.get]
                  exact hfirst j (by simpa using hj) (by omega)
          · right
            have hall' : ∀ (j : ℕ) (hj : j < (c :: rest).length),
                ((c :: rest).get ⟨j, hj⟩).visit ≠ 0 := by
              intro j hj
              cases j with
              | zero => simpa [List.get] using h0
              | succ j => simpa [List.get] using hall j (by simpa using hj)
            refine ⟨hall', ?_⟩
            rcases hsub with ⟨heq, hle⟩ | ⟨k, hk, heq, hgt, hle, hstrict⟩
            · left
              refine ⟨by rw [hloop, heq], ?_⟩
              intro j hj
              cases j with
              | zero => simpa [List.get] using le_of_not_lt hlt
              | succ j => simpa [List.get] using hle j (by simpa using hj)
            · right
              refine ⟨k + 1, by simpa using hk, ?_, ?_, ?_, ?_⟩
              · rw [hloop, heq]; omega
              · simp only [List.get]
                exact hgt
              · intro j hj
                cases j with
                | zero =>
                    simp only [List.get]
                    exact le_trans (le_of_not_lt hlt) (le_of_lt hgt)
                | succ j => simpa [List.get] using hle j (by simpa using hj)
              · intro j hj hjk
                cases j with
                | zero =>
                    simp only [List.get]
                    exact lt_of_le_of_lt (le_of_not_lt hlt) hgt
                | succ j =>
                    simp only [List.get]
                    exact hstrict j (by simpa using hj) (by omega)

/-- C5: on a node with children, `select(N)` returns the first child in list
order whose visit count is zero when one exists, and otherwise the child
maximizing `ucb1(N)`, an earlier child beating every later one on an exact
tie (strict `>` comparison against the running best). -/
theorem C5_select_first_unvisited_else_argmax (n : MCNode) (N : ℕ)
    (hne : n.children ≠ []) :
    ∃ (i : ℕ) (hi : i < n.children.length),
      n.select N = n.children.get ⟨i, hi⟩ ∧
      (((n.children.get ⟨i, hi⟩).visit = 0 ∧
        ∀ (j : ℕ) (hj : j < n.children.length), j < i →
          (n.children.get ⟨j, hj⟩).visit ≠ 0) ∨
       ((∀ (j : ℕ) (hj : j < n.children.length),
          (n.children.get ⟨j, hj⟩).visit ≠ 0) ∧
        (∀ (j : ℕ) (hj : j < n.children.length),
          (n.children.get ⟨j, hj⟩).ucb1 N ≤ (n.children.get ⟨i, hi⟩).ucb1 N) ∧
        (∀ (j : ℕ) (hj : j < n.children.length), j < i →
          (n.children.get ⟨j, hj⟩).ucb1 N <
            (n.children.get ⟨i, hi⟩).ucb1 N))) := by
  match hch : n.children with
  | [] => exact absurd hch hne
  | c :: rest =>
      have hsel : n.select N = (c :: rest).getD (selectIdx N (c :: rest)) n := by
        rw [MCNode.select, hch]
      have hidx : selectIdx N (c :: rest) =
          selectIdxLoop N (c :: rest) 0 0 (c.ucb1 N) := rfl
      rcases selectIdxLoop_spec N (c :: rest) 0 0 (c.ucb1 N) with
        ⟨k, hk, heq, hv0, hfirst⟩ | ⟨hall, hsub⟩
      · refine ⟨k, hk, ?_, Or.inl ⟨hv0, hfirst⟩⟩
        rw [hsel, hidx, heq]
        have : 0 + k = k := by omega
        rw [this, getD_eq_get_of_lt (c :: rest) k n hk]
      · rcases hsub with ⟨heq, hle⟩ | ⟨k, hk, heq, hgt, hle, hstrict⟩
        · refine ⟨0, by simp, ?_, Or.inr ⟨hall, ?_, ?_⟩⟩
          · rw [hsel, hidx, heq]
            exact getD_eq_get_of_lt (c :: rest) 0 n (by simp)
          · intro j hj
            have := hle j hj
            simpa [List.get] using this
          · intro j hj hj0
            omega
        · refine ⟨k, hk, ?_, Or.inr ⟨hall, hle, hstrict⟩⟩
          rw [hsel, hidx, heq]
          have : 0 + k = k := by omega
          rw [this, getD_eq_get_of_lt (c :: rest) k n hk]

/-- Witness for C5: among children with visit counts 2 and 0, `select`
returns a child, and the characterization applies (the second child, being
unvisited, is the one returned). -/
theorem C5_select_first_unvisited_else_argmax_witness :
    ((MCNode.mk 3 0 [MCNode.mk 2 1 [] false true, MCNode.mk 0 0 [] false true]
        false true).children ≠ []) ∧
    (∃ (i : ℕ)
      (hi : i < (MCNode.mk 3 0 [MCNode.mk 2 1 [] false true,
        MCNode.mk 0 0 [] false true] false true).children.length),
      (MCNode.mk 3 0 [MCNode.mk 2 1 [] false true,
        MCNode.mk 0 0 [] false true] false true).select 2 =
        (MCNode.mk 3 0 [MCNode.mk 2 1 [] false true,
          MCNode.mk 0 0 [] false true] false true).children.get ⟨i, hi⟩ ∧
      ((((MCNode.mk 3 0 [MCNode.mk 2 1 [] false true,
          MCNode.mk 0 0 [] false true] false true).children.get
            ⟨i, hi⟩).visit = 0 ∧
        ∀ (j : ℕ)
          (hj : j < (MCNode.mk 3 0 [MCNode.mk 2 1 [] false true,
            MCNode.mk 0 0 [] false true] false true).children.length), j < i →
          (((MCNode.mk 3 0 [MCNode.mk 2 1 [] false true,
            MCNode.mk 0 0 [] false true] false true).children.get
              ⟨j, hj⟩).visit ≠ 0)) ∨
       ((∀ (j : ℕ)
          (hj : j < (MCNode.mk 3 0 [MCNode.mk 2 1 [] false true,
            MCNode.mk 0 0 [] false true] false true).children.length),
          (((MCNode.mk 3 0 [MCNode.mk 2 1 [] false true,
            MCNode.mk 0 0 [] false true] false true).children.get
              ⟨j, hj⟩).visit ≠ 0)) ∧
        (∀ (j : ℕ)
          (hj : j < (MCNode.mk 3 0 [MCNode.mk 2 1 [] false true,
            MCNode.mk 0 0 [] false true] false true).children.length),
          ((MCNode.mk 3 0 [MCNode.mk 2 1 [] false true,
            MCNode.mk 0 0 [] false true] false true).children.get
              ⟨j, hj⟩).ucb1 2 ≤
            ((MCNode.mk 3 0 [MCNode.mk 2 1 [] false true,
              MCNode.mk 0 0 [] false true] false true).children.get
                ⟨i, hi⟩).ucb1 2) ∧
        (∀ (j : ℕ)
          (hj : j < (MCNode.mk 3 0 [MCNode.mk 2 1 [] false true,
            MCNode.mk 0 0 [] false true] false true).children.length), j < i →
          ((MCNode.mk 3 0 [MCNode.mk 2 1 [] false true,
            MCNode.mk 0 0 [] false true] false true).children.get
              ⟨j, hj⟩).ucb1 2 <
            ((MCNode.mk 3 0 [MCNode.mk 2 1 [] false true,
              MCNode.mk 0 0 [] false true] false true).children.get
                ⟨i, hi⟩).ucb1 2)))) :=
  ⟨by simp [MCNode.children],
    C5_select_first_unvisited_else_argmax
      (MCNode.mk 3 0 [MCNode.mk 2 1 [] false true,
        MCNode.mk 0 0 [] false true] false true) 2
      (by simp [MCNode.children])⟩

theorem visit_mk (v : ℕ) (s : ℝ) (ch : List MCNode) (it ms : Bool) :
    (MCNode.mk v s ch it ms).visit = v := rfl

theorem score_mk (v : ℕ) (s : ℝ) (ch : List MCNode) (it ms : Bool) :
    (MCNode.mk v s ch it ms).score = s := rfl

theorem children_mk (v : ℕ) (s : ℝ) (ch : List MCNode) (it ms : Bool) :
    (MCNode.mk v s ch it ms).children = ch := rfl

theorem abs_flipBy (n : MCNode) (r : ℝ) : |flipBy n r| = |r| := by
  rw [flipBy]
  split
  · exact abs_neg r
  · rfl

theorem AllNodes_iff (P : MCNode → Prop) (t : MCNode) :
    AllNodes P t ↔ (P t ∧ ∀ c ∈ t.children, AllNodes P c) := by
  rw [AllNodes]

theorem AllNodes_of_childless (P : MCNode → Prop) (t : MCNode)
    (h : t.children = []) (hP : P t) : AllNodes P t := by
  rw [AllNodes_iff]
  exact ⟨hP, by simp [h]⟩

/-- Invariant of C9: the accumulated score never exceeds the visit count in
absolute value. -/
def ScoreInv (n : MCNode) : Prop := |n.score| ≤ (n.visit : ℝ)

theorem ScoreInv_addResult (n : MCNode) (r : ℝ) (hn : ScoreInv n)
    (hr : |r| ≤ 1) : ScoreInv (addResult n r) := by
  rw [ScoreInv, addResult, score_mk, visit_mk]
  push_cast
  calc |n.score + r| ≤ |n.score| + |r| := abs_add _ _
    _ ≤ (n.visit : ℝ) + 1 := add_le_add hn hr

theorem searchIterAux_ScoreInv (N : ℕ) (exp : List MCNode) (sim : ℝ)
    (hsim : |sim| ≤ 1) (hexp : ∀ c ∈ exp, FreshNode c) :
    ∀ (fuel : ℕ) (t : MCNode), sizeOf t ≤ fuel → AllNodes ScoreInv t →
      AllNodes ScoreInv (searchIterAux N exp sim t).1 ∧
      |(searchIterAux N exp sim t).2| ≤ 1 := by
  intro fuel
  induction fuel with
  | zero =>
      intro t hsz
      exfalso
      cases t with
      | mk v s ch it ms =>
          simp only [MCNode.mk.sizeOf_spec] at hsz
          omega
  | succ fuel ih =>
      intro t hsz hall
      by_cases hch : t.children = []
      · rw [searchIterAux_leaf N exp sim t hch]
        have hPt : ScoreInv t := ((AllNodes_iff ScoreInv t).1 hall).1
        by_cases hcond : t.is_terminal = false ∧ t.visit ≠ 0
        · match hx : exp with
          | [] =>
              rw [leafStep_expand_nil sim t hcond.1 hcond.2]
              refine ⟨AllNodes_of_childless _ _ (children_mk _ _ _ _ _) ?_, ?_⟩
              · rw [ScoreInv, score_mk, visit_mk]
                push_cast
                calc |t.score + sim| ≤ |t.score| + |sim| := abs_add _ _
                  _ ≤ (t.visit : ℝ) + 1 := add_le_add hPt hsim
              · rw [abs_flipBy]
                exact hsim
          | c :: cs =>
              rw [leafStep_expand_cons c cs sim t hcond.1 hcond.2]
              have hcf : FreshNode c := hexp c (by simp)
              refine ⟨?_, ?_⟩
              · rw [AllNodes_iff]
                constructor
                · rw [ScoreInv, score_mk, visit_mk]
                  push_cast
                  calc |t.score + flipBy c sim|
                      ≤ |t.score| + |flipBy c sim| := abs_add _ _
                    _ ≤ (t.visit : ℝ) + 1 := by
                        rw [abs_flipBy]
                        exact add_le_add hPt hsim
                · rw [children_mk]
                  intro x hx
                  rcases List.mem_cons.1 hx with hx | hx
                  · subst hx
                    refine AllNodes_of_childless _ _ ?_ ?_
                    · rw [addResult]
                      rw [children_mk]
                      exact hcf.2.2
                    · refine ScoreInv_addResult c sim ?_ hsim
                      rw [ScoreInv, hcf.1, hcf.2.1]
                      simp
                  · have hxf : FreshNode x := hexp x (by simp [hx])
                    refine AllNodes_of_childless _ _ hxf.2.2 ?_
                    rw [ScoreInv, hxf.1, hxf.2.1]
                    simp
              · rw [abs_flipBy, abs_flipBy]
                exact hsim
        · have hcond' : t.is_terminal = true ∨ t.visit = 0 := by
            rcases Bool.eq_false_or_eq_true t.is_terminal with hb | hb
            · left; exact hb
            · right
              by_contra hv
              exact hcond ⟨hb, hv⟩
          rw [leafStep_no_expand exp sim t hcond']
          refine ⟨?_, ?_⟩
          · rw [AllNodes_iff]
            refine ⟨ScoreInv_addResult t sim hPt hsim, ?_⟩
            rw [addResult, children_mk, hch]
            intro x hx
            exact absurd hx (List.not_mem_nil x)
          · rw [abs_flipBy]
            exact hsim
      · rw [searchIterAux_descend N exp sim t hch]
        set i := selectIdx N t.children with hidef
        have hilt := selectIdx_lt N t.children hch
        have hchild := List.get_mem t.children i hilt
        have hszc : sizeOf (t.children.get ⟨i, hilt⟩) ≤ fuel := by
          have := sizeOf_get_children t i hilt
          omega
        have hac : AllNodes ScoreInv (t.children.get ⟨i, hilt⟩) :=
          ((AllNodes_iff ScoreInv t).1 hall).2 _ hchild
        have hrec := ih (t.children.get ⟨i, hilt⟩) hszc hac
        refine ⟨?_, ?_⟩
        · rw [AllNodes_iff]
          constructor
          · rw [ScoreInv, score_mk, visit_mk]
            push_cast
            calc |t.score + (searchIterAux N exp sim
                  (t.children.get ⟨i, hilt⟩)).2|
                ≤ |t.score| + |(searchIterAux N exp sim
                  (t.children.get ⟨i, hilt⟩)).2| := abs_add _ _
              _ ≤ (t.visit : ℝ) + 1 :=
                  add_le_add (((AllNodes_iff ScoreInv t).1 hall).1) hrec.2
          · rw [children_mk]
            intro x hx
            rcases List.mem_or_eq_of_mem_set hx with hx | hx
            · exact ((AllNodes_iff ScoreInv t).1 hall).2 x hx
            · subst hx
              exact hrec.1
        · rw [abs_flipBy]
          exact hrec.2

/-- C9 preservation over a whole run of cycles. -/
theorem runCycles_ScoreInv (l : List (List MCNode × ℝ))
    (hl : ∀ p ∈ l, |p.2| ≤ 1 ∧ ∀ c ∈ p.1, FreshNode c) :
    ∀ t, AllNodes ScoreInv t → AllNodes ScoreInv (runCycles l t) := by
  induction l with
  | nil => intro t h; exact h
  | cons p rest ih =>
      intro t h
      match p with
      | (e, s) =>
          rw [runCycles]
          refine ih (fun q hq => hl q (by simp [hq])) _ ?_
          rw [searchIter]
          exact (searchIterAux_ScoreInv t.visit e s
            (hl (e, s) (by simp)).1 (hl (e, s) (by simp)).2
            (sizeOf t) t (le_refl _) h).1

/-- C9: starting from a fresh root, if every simulation result of every
cycle lies in `[-1, 1]` and every expansion delivers fresh children (as the
`expand()` contract requires), then after any number of search cycles every
node of the tree satisfies `|score| ≤ visit`. -/
theorem C9_abs_score_le_visit (l : List (List MCNode × ℝ)) (root : MCNode)
    (hroot : FreshNode root)
    (hl : ∀ p ∈ l, |p.2| ≤ 1 ∧ ∀ c ∈ p.1, FreshNode c) :
    AllNodes ScoreInv (runCycles l root) := by
  refine runCycles_ScoreInv l hl root ?_
  refine AllNodes_of_childless _ _ hroot.2.2 ?_
  rw [ScoreInv, hroot.1, hroot.2.1]
  simp

/-- Witness for C9: one cycle with simulation result 1 on a fresh root. -/
theorem C9_abs_score_le_visit_witness :
    FreshNode (MCNode.mk 0 0 [] false true) ∧
    (∀ p ∈ [(([] : List MCNode), (1 : ℝ))], |p.2| ≤ 1 ∧
      ∀ c ∈ p.1, FreshNode c) ∧
    AllNodes ScoreInv (runCycles [(([] : List MCNode), (1 : ℝ))]
      (MCNode.mk 0 0 [] false true)) := by
  have h1 : FreshNode (MCNode.mk 0 0 [] false true) := ⟨rfl, rfl, rfl⟩
  have h2 : ∀ p ∈ [(([] : List MCNode), (1 : ℝ))], |p.2| ≤ 1 ∧
      ∀ c ∈ p.1, FreshNode c := by
    intro p hp
    rcases List.mem_singleton.1 hp with rfl
    constructor
    · norm_num
    · intro c hc
      exact absurd hc (List.not_mem_nil c)
  exact ⟨h1, h2, C9_abs_score_le_visit _ _ h1 h2⟩

/-- Invariant of C10: a node that has been expanded (non-empty child list)
has been visited at least once. -/
def ChildInv (n : MCNode) : Prop := n.children ≠ [] → 1 ≤ n.visit

theorem searchIterAux_ChildInv (N : ℕ) (exp : List MCNode) (sim : ℝ)
    (hexp : ∀ c ∈ exp, FreshNode c) :
    ∀ (fuel : ℕ) (t : MCNode), sizeOf t ≤ fuel → AllNodes ChildInv t →
      AllNodes ChildInv (searchIterAux N exp sim t).1 := by
  intro fuel
  induction fuel with
  | zero =>
      intro t hsz
      exfalso
      cases t with
      | mk v s ch it ms =>
          simp only [MCNode.mk.sizeOf_spec] at hsz
          omega
  | succ fuel ih =>
      intro t hsz hall
      by_cases hch : t.children = []
      · rw [searchIterAux_leaf N exp sim t hch]
        by_cases hcond : t.is_terminal = false ∧ t.visit ≠ 0
        · match hx : exp with
          | [] =>
              rw [leafStep_expand_nil sim t hcond.1 hcond.2]
              refine AllNodes_of_childless _ _ (children_mk _ _ _ _ _) ?_
              rw [ChildInv, children_mk]
              intro hne
              exact absurd rfl hne
          | c :: cs =>
              rw [leafStep_expand_cons c cs sim t hcond.1 hcond.2]
              rw [AllNodes_iff]
              constructor
              · rw [ChildInv, children_mk, visit_mk]
                intro _
                omega
              · rw [children_mk]
                intro x hxm
                rcases List.mem_cons.1 hxm with hxm | hxm
                · subst hxm
                  refine AllNodes_of_childless _ _ ?_ ?_
                  · rw [addResult, children_mk]
                    exact (hexp c (by simp)).2.2
                  · rw [ChildInv, addResult, children_mk,
                      (hexp c (by simp)).2.2]
                    intro hne
                    exact absurd rfl hne
                · have hxf : FreshNode x := hexp x (by simp [hxm])
                  refine AllNodes_of_childless _ _ hxf.2.2 ?_
                  rw [ChildInv, hxf.2.2]
                  intro hne
                  exact absurd rfl hne
        · have hcond' : t.is_terminal = true ∨ t.visit = 0 := by
            rcases Bool.eq_false_or_eq_true t.is_terminal with hb | hb
            · left; exact hb
            · right
              by_contra hv
              exact hcond ⟨hb, hv⟩
          rw [leafStep_no_expand exp sim t hcond']
          refine AllNodes_of_childless _ _ ?_ ?_
          · rw [addResult, children_mk]
            exact hch
          · rw [ChildInv, addResult, children_mk, hch]
            intro hne
            exact absurd rfl hne
      · rw [searchIterAux_descend N exp sim t hch]
        have hilt := selectIdx_lt N t.children hch
        have hchild := List.get_mem t.children (selectIdx N t.children) hilt
        have hszc : sizeOf (t.children.get ⟨selectIdx N t.children, hilt⟩) ≤ fuel := by
          have := sizeOf_get_children t (selectIdx N t.children) hilt
          omega
        have hac : AllNodes ChildInv
            (t.children.get ⟨selectIdx N t.children, hilt⟩) :=
          ((AllNodes_iff ChildInv t).1 hall).2 _ hchild
        have hrec := ih _ hszc hac
        rw [AllNodes_iff]
        constructor
        · rw [ChildInv, children_mk, visit_mk]
          intro _
          omega
        · rw [children_mk]
          intro x hxm
          rcases List.mem_or_eq_of_mem_set hxm with hxm | hxm
          · exact ((AllNodes_iff ChildInv t).1 hall).2 x hxm
          · subst hxm
            exact hrec

/-- C10 preservation over a whole run of cycles. -/
theorem runCycles_ChildInv (l : List (List MCNode × ℝ))
    (hl : ∀ p ∈ l, ∀ c ∈ p.1, FreshNode c) :
    ∀ t, AllNodes ChildInv t → AllNodes ChildInv (runCycles l t) := by
  induction l with
  | nil => intro t h; exact h
  | cons p rest ih =>
      intro t h
      match p with
      | (e, s) =>
          rw [runCycles]
          refine ih (fun q hq => hl q (by simp [hq])) _ ?_
          rw [searchIter]
          exact searchIterAux_ChildInv t.visit e s
            (hl (e, s) (by simp)) (sizeOf t) t (le_refl _) h

/-- C10: in every tree state reachable by running search cycles from a
freshly constructed root (with `expand()` delivering fresh children), every
node with a non-empty child list has `visit ≥ 1` — expansion only fires on a
node whose visit count is nonzero, and the cycle's backpropagation touches
the expanded node, so an expanded-but-unvisited node never occurs. -/
theorem C10_expanded_nodes_are_visited (l : List (List MCNode × ℝ))
    (root : MCNode) (hroot : FreshNode root)
    (hl : ∀ p ∈ l, ∀ c ∈ p.1, FreshNode c) :
    AllNodes ChildInv (runCycles l root) := by
  refine runCycles_ChildInv l hl root ?_
  refine AllNodes_of_childless _ _ hroot.2.2 ?_
  rw [ChildInv, hroot.2.2]
  intro hne
  exact absurd rfl hne

/-- Witness for C10: two cycles (the second expands the root with one fresh
child) on a fresh root. -/
theorem C10_expanded_nodes_are_visited_witness :
    FreshNode (MCNode.mk 0 0 [] false true) ∧
    (∀ p ∈ [(([] : List MCNode), (1 : ℝ)),
        ([MCNode.mk 0 0 [] false true], (0 : ℝ))],
      ∀ c ∈ p.1, FreshNode c) ∧
    AllNodes ChildInv (runCycles [(([] : List MCNode), (1 : ℝ)),
        ([MCNode.mk 0 0 [] false true], (0 : ℝ))]
      (MCNode.mk 0 0 [] false true)) := by
  have h1 : FreshNode (MCNode.mk 0 0 [] false true) := ⟨rfl, rfl, rfl⟩
  have h2 : ∀ p ∈ [(([] : List MCNode), (1 : ℝ)),
      ([MCNode.mk 0 0 [] false true], (0 : ℝ))], ∀ c ∈ p.1, FreshNode c := by
    intro p hp c hc
    rcases List.mem_cons.1 hp with rfl | hp
    · exact absurd hc (List.not_mem_nil c)
    · rcases List.mem_singleton.1 hp with rfl
      rcases List.mem_singleton.1 hc with rfl
      exact h1
  exact ⟨h1, h2, C10_expanded_nodes_are_visited _ _ h1 h2⟩
